import Mathlib

/-!
Shallow embedding of the dense-matrix container and the multiplication
routines of `hw3/Sean20405/matrix.cpp`.  Matrix elements (`double` in the
source) are modelled as exact rationals where the claims speak about exact
arithmetic, and by a small IEEE-comparison value type where a claim speaks
about floating-point equality semantics.  The raw element buffer is a flat
row-major list; the unchecked `operator()` is modelled by `List.getD`
(an out-of-range read yields the zero default) and `List.set` (an
out-of-range write is dropped), mirroring how the source indexes its
buffer.  Ownership and aliasing facts (copy, move, buffer identity) are
modelled separately by a store of allocated buffers further below.
-/

set_option autoImplicit false

section RatEval

set_option allowUnsafeReducibility true

attribute [local semireducible] Rat.add Rat.mul Rat.sub

namespace Cpp

/-- The two error conditions the source raises (both as `std::out_of_range`,
with distinct messages): flat-sequence length mismatch in
`Matrix::operator=(std::vector<double> const &)` and the dimension check at
the entry of the multiplication routines. -/
inductive MatErr where
  | shapeMismatch
  | dimensionMismatch
deriving DecidableEq

/-- View of an `Except` value as a sum, used to decide equality of results. -/
def exceptToSum {ε α : Type} : Except ε α → ε ⊕ α
  | .error e => .inl e
  | .ok a => .inr a

instance {ε α : Type} [DecidableEq ε] [DecidableEq α] :
    DecidableEq (Except ε α) := fun a b =>
  decidable_of_iff (exceptToSum a = exceptToSum b)
    (by cases a <;> cases b <;> simp [exceptToSum])

/-- The matrix value: `nrow`, `ncol` and the flat row-major element buffer
(`double * data` in the source, holding `nrow*ncol` doubles). -/
structure Matrix (α : Type) where
  nrow : ℕ
  ncol : ℕ
  data : List α
deriving DecidableEq

/-- `operator()`: unchecked read of `data[ncol * row + col]`. -/
def Matrix.get {α : Type} [Zero α] (m : Matrix α) (i j : ℕ) : α :=
  m.data.getD (m.ncol * i + j) 0

/-- A write through `operator()`: `data[ncol * row + col] = v`. -/
def Matrix.set {α : Type} (m : Matrix α) (i j : ℕ) (v : α) : Matrix α :=
  ⟨m.nrow, m.ncol, m.data.set (m.ncol * i + j) v⟩

/-- `Matrix(num_row, num_col)`: `reset_buffer` allocates `nrow*ncol`
elements and zero-fills them with `memset`. -/
def Matrix.construct (α : Type) [Zero α] (r c : ℕ) : Matrix α :=
  ⟨r, c, List.replicate (r * c) 0⟩

/-- `Matrix::operator=(std::vector<double> const &)`: the size check, then
the double loop copying `vec[k]` into `(*this)(i, j)` while incrementing the
running counter `k`. -/
def Matrix.assign {α : Type} [Zero α] (m : Matrix α) (vec : List α) :
    Except MatErr (Matrix α) :=
  if m.nrow * m.ncol ≠ vec.length then
    .error .shapeMismatch
  else
    .ok (Prod.fst ((List.range m.nrow).foldl (fun p i =>
      (List.range m.ncol).foldl (fun q j =>
        (q.1.set i j (vec.getD q.2 0), q.2 + 1)) p) (m, 0)))

/-- `Matrix(num_row, num_col, vec)`: `reset_buffer(num_row, num_col)` then
`(*this) = vec`. -/
def Matrix.ofVec (α : Type) [Zero α] (r c : ℕ) (vec : List α) :
    Except MatErr (Matrix α) :=
  (Matrix.construct α r c).assign vec

/-- `Matrix::to_vector`: exports the first `nrow*ncol` buffer elements. -/
def Matrix.to_vector {α : Type} (m : Matrix α) : List α :=
  m.data.take (m.nrow * m.ncol)

/-- `multiply_naive`: the dimension check, then the `i`/`k`/`j` triple loop
accumulating `ret(i, k) += mat1(i, j) * mat2(j, k)` into the zero-filled
result `Matrix ret(mat1.nrow, mat2.ncol)`. -/
def multiply_naive (mat1 mat2 : Matrix ℚ) : Except MatErr (Matrix ℚ) :=
  if mat1.ncol ≠ mat2.nrow then
    .error .dimensionMismatch
  else
    .ok ((List.range mat1.nrow).foldl (fun ret i =>
      (List.range mat2.ncol).foldl (fun ret k =>
        (List.range mat1.ncol).foldl (fun ret j =>
          ret.set i k (ret.get i k + mat1.get i j * mat2.get j k)) ret) ret)
      (Matrix.construct ℚ mat1.nrow mat2.ncol))

/-- One strided C++ loop header `for (x = i; x < n; x += ts)`, listing the
values the counter takes, with explicit fuel: `none` models a loop that has
not finished within `fuel` iterations (with `ts = 0` and `i < n` the source
loop never terminates). -/
def stepRange : ℕ → ℕ → ℕ → ℕ → Option (List ℕ)
  | 0, i, n, _ => if i < n then none else some []
  | fuel + 1, i, n, ts =>
      if i < n then (stepRange fuel (i + ts) n ts).map (fun l => i :: l)
      else some []

/-- `multiply_tile`: the dimension check, the three strided tile loops with
bounds `mat1_nrow`, `mat2_ncol`, `mat1_ncol` — exactly the bounds the source
uses — and the inner block loops with body
`ret(i, j) += mat1(i, k) * mat2(k, j)` where `tmp` caches `mat1(i, k)`.
Each strided loop is given fuel equal to its bound (enough iterations for
any `ts ≥ 1`); the payload is `none` exactly when some strided loop fails
to terminate within that fuel, as happens for `ts = 0` on a nonempty
bound. -/
def multiply_tile (mat1 mat2 : Matrix ℚ) (ts : ℕ) :
    Except MatErr (Option (Matrix ℚ)) :=
  if mat1.ncol ≠ mat2.nrow then
    .error .dimensionMismatch
  else
    .ok ((stepRange mat1.nrow 0 mat1.nrow ts).bind fun tis =>
      (stepRange mat2.ncol 0 mat2.ncol ts).bind fun tks =>
      (stepRange mat1.ncol 0 mat1.ncol ts).map fun tjs =>
      tis.foldl (fun ret tile_i =>
        tks.foldl (fun ret tile_k =>
          tjs.foldl (fun ret tile_j =>
            let tile_i_end := min (tile_i + ts) mat1.nrow
            let tile_k_end := min (tile_k + ts) mat2.ncol
            let tile_j_end := min (tile_j + ts) mat1.ncol
            (List.range' tile_i (tile_i_end - tile_i)).foldl (fun ret i =>
              (List.range' tile_k (tile_k_end - tile_k)).foldl (fun ret k =>
                let tmp := mat1.get i k
                (List.range' tile_j (tile_j_end - tile_j)).foldl (fun ret j =>
                  ret.set i j (ret.get i j + tmp * mat2.get k j)) ret) ret)
              ret) ret) ret)
        (Matrix.construct ℚ mat1.nrow mat2.ncol))

/-- The `double` values relevant to the equality claim, by how they behave
under IEEE-754 comparison: ordinary finite values (`num 0` standing for the
`+0.0` bit pattern), the distinct `-0.0` bit pattern, and NaN.  Structural
equality of this type is bit-for-bit equality of the stored doubles. -/
inductive DVal where
  | num (q : ℚ)
  | negZero
  | nan
deriving DecidableEq

instance : Zero DVal := ⟨DVal.num 0⟩

/-- IEEE-754 `operator==` on `double`: NaN compares unequal to everything,
itself included, and `-0.0 == +0.0` although their bits differ. -/
def DVal.ieeeEq : DVal → DVal → Bool
  | DVal.nan, _ => false
  | _, DVal.nan => false
  | DVal.negZero, DVal.negZero => true
  | DVal.negZero, DVal.num q => q == 0
  | DVal.num q, DVal.negZero => q == 0
  | DVal.num a, DVal.num b => a == b

/-- `Matrix::operator==`: the dimension checks, then the element loop that
returns `false` on the first pair with `(*this)(i, j) != m(i, j)`
(IEEE `!=` on `double`). -/
def Matrix.beq (a b : Matrix DVal) : Bool :=
  if a.nrow ≠ b.nrow ∨ a.ncol ≠ b.ncol then false
  else
    (List.range a.nrow).all (fun i =>
      (List.range a.ncol).all (fun j => DVal.ieeeEq (a.get i j) (b.get i j)))

/-!
The store model.  The pure `Matrix` value above is silent about buffer
ownership, so the claims about copy independence and move semantics are
modelled against a heap of allocated buffers: a matrix object holds its
dimensions and an owning pointer (a buffer id, or `none` for `nullptr`),
exactly the data members of the source class.
-/

/-- A heap of allocated element buffers: `next` is the next fresh buffer id
and `mem` gives each id's contents.  This models `new double[n]` and raw
pointer ownership. -/
structure Store where
  next : ℕ
  mem : ℕ → List ℚ

/-- `new double[len]` followed by `memset(..., 0, ...)`: a fresh, zero-filled
buffer with a previously unused id. -/
def Store.alloc (s : Store) (len : ℕ) : Store × ℕ :=
  (⟨s.next + 1, fun b => if b = s.next then List.replicate len 0 else s.mem b⟩,
    s.next)

/-- A matrix object as the source lays it out: `nrow`, `ncol` and the owning
pointer `double * data` (`none` is the null pointer).  The class declaration
lives in a header that is not among the sources; modelled from the spec: a
not-yet-allocated object holds no buffer, matching the spec's valid empty
matrix with no backing storage. -/
structure MatrixRef where
  nrow : ℕ
  ncol : ℕ
  data : Option ℕ
deriving DecidableEq

/-- `Matrix::reset_buffer(nrow, ncol)`: drop the old buffer (`delete[]`),
allocate a zero-filled one when `nrow*ncol` is nonzero and set
`data = nullptr` otherwise, then store the new dimensions. -/
def resetBuffer (s : Store) (nrow ncol : ℕ) : Store × MatrixRef :=
  let nelement := nrow * ncol
  if nelement ≠ 0 then
    let p := s.alloc nelement
    (p.1, ⟨nrow, ncol, some p.2⟩)
  else
    (s, ⟨nrow, ncol, none⟩)

/-- Read `(*this)(i, j)` out of the store.  Reading through a null pointer
is undefined in C++; the model returns 0 there. -/
def MatrixRef.get (m : MatrixRef) (s : Store) (i j : ℕ) : ℚ :=
  match m.data with
  | some b => (s.mem b).getD (m.ncol * i + j) 0
  | none => 0

/-- Write `(*this)(i, j) = v` into the store. -/
def MatrixRef.set (m : MatrixRef) (s : Store) (i j : ℕ) (v : ℚ) : Store :=
  match m.data with
  | some b =>
      ⟨s.next, fun c => if c = b then (s.mem b).set (m.ncol * i + j) v
        else s.mem c⟩
  | none => s

/-- `Matrix(num_row, num_col)` as an object: the members are initialized
(null `data`), then `reset_buffer(nrow, ncol)` runs. -/
def MatrixRef.construct (s : Store) (r c : ℕ) : Store × MatrixRef :=
  resetBuffer s r c

/-- The element-copy loop shared by the copy constructor and the copy
assignment operator: `(*this)(i, j) = other(i, j)` for all `i < nrow`,
`j < ncol` of the destination. -/
def copyLoop (s : Store) (dst src : MatrixRef) : Store :=
  (List.range dst.nrow).foldl (fun s i =>
    (List.range dst.ncol).foldl (fun s j =>
      dst.set s i j (src.get s i j)) s) s

/-- `Matrix(Matrix const &)`: member-initializes the dimensions,
`reset_buffer(other.nrow, other.ncol)`, then the element-copy loop. -/
def MatrixRef.copyCtor (s : Store) (other : MatrixRef) : Store × MatrixRef :=
  let p := resetBuffer s other.nrow other.ncol
  (copyLoop p.1 p.2 other, p.2)

/-- `Matrix::operator=(Matrix const &)` for distinct objects: reallocate via
`reset_buffer` when the shapes differ, then the element-copy loop.  (The
`this == &other` self-assignment short-circuit compares object identity,
which has no counterpart between distinct values of this model.) -/
def MatrixRef.copyAssign (s : Store) (me other : MatrixRef) :
    Store × MatrixRef :=
  let p := if me.nrow ≠ other.nrow ∨ me.ncol ≠ other.ncol then
      resetBuffer s other.nrow other.ncol
    else (s, me)
  (copyLoop p.1 p.2 other, p.2)

/-- `Matrix(Matrix &&)`: member-initializes the dimensions on the new object
(null `data`), runs `reset_buffer(0, 0)` on it, then swaps `nrow`, `ncol`
and `data` with the source.  Returns the new object and the moved-from
object; no buffer is allocated, read or written. -/
def MatrixRef.moveCtor (s : Store) (other : MatrixRef) :
    Store × MatrixRef × MatrixRef :=
  let p := resetBuffer s 0 0
  (p.1, ⟨other.nrow, other.ncol, other.data⟩, p.2)

/-- `Matrix::operator=(Matrix &&)` for distinct objects: swaps `nrow`,
`ncol` and `data` of the two objects; no buffer is allocated, freed, read or
written.  Returns the assigned-to object and the moved-from object. -/
def MatrixRef.moveAssign (me other : MatrixRef) : MatrixRef × MatrixRef :=
  (⟨other.nrow, other.ncol, other.data⟩, ⟨me.nrow, me.ncol, me.data⟩)

/-- The data-model invariant of the spec: the buffer holds exactly
`nrow*ncol` values, an empty matrix owns no buffer (`data == nullptr`
exactly when `nrow*ncol == 0`), and every owned buffer was allocated by the
store. -/
def MatrixRef.WF (m : MatrixRef) (s : Store) : Prop :=
  match m.data with
  | none => m.nrow * m.ncol = 0
  | some b =>
      b < s.next ∧ (s.mem b).length = m.nrow * m.ncol ∧ m.nrow * m.ncol ≠ 0

instance (m : MatrixRef) (s : Store) : Decidable (m.WF s) := by
  unfold MatrixRef.WF
  cases m.data <;> infer_instance

/-- The store with nothing allocated yet. -/
def emptyStore : Store := ⟨0, fun _ => []⟩

/-- The moved-from matrices of the C3 counterexample: two 1×1 matrices are
allocated (ids 0 for `Y`, 1 for `X`), their single elements set to 5 and
7. -/
def mv1 : Store × MatrixRef := MatrixRef.construct emptyStore 1 1

/-- The first allocated matrix `Y`, holding 5. -/
def mvY : MatrixRef := mv1.2

/-- The second construction, after writing `Y(0,0) = 5`. -/
def mv2 : Store × MatrixRef := MatrixRef.construct (mvY.set mv1.1 0 0 5) 1 1

/-- The second allocated matrix `X`, holding 7. -/
def mvX : MatrixRef := mv2.2

/-- The store after both writes. -/
def mvS : Store := mvX.set mv2.1 0 0 7

/-- A strided loop with positive step finishes within `n - i` iterations. -/
theorem stepRange_isSome {ts : ℕ} (hts : 1 ≤ ts) :
    ∀ fuel i n, n - i ≤ fuel → (stepRange fuel i n ts).isSome := by
  intro fuel
  induction fuel with
  | zero =>
      intro i n h
      have hin : ¬ i < n := by omega
      simp [stepRange, hin]
  | succ f ih =>
      intro i n h
      by_cases hin : i < n
      · have : n - (i + ts) ≤ f := by omega
        have hs := ih (i + ts) n this
        simp only [stepRange, if_pos hin]
        obtain ⟨l, hl⟩ := Option.isSome_iff_exists.mp hs
        simp [hl]
      · simp [stepRange, hin]

/-- C1 (the code as written): at A = [[1,2,3],[4,5,6]] and
B = [[7,8],[9,10],[11,12]] — so `A.cols == B.rows` holds — and tile size 16,
`multiply_tile` runs to completion but returns [[25,28],[104,82]] while
`multiply_naive` returns the mathematical product [[58,64],[139,154]]: the
tile loop bounds of `tile_k` and `tile_j` are exchanged, so the reduction
index only covers `k < B.cols` instead of `k < A.cols` and the output column
index runs to `A.cols`, past the end of each result row. -/
theorem multiply_tile_nonsquare_bug :
    multiply_tile ⟨2, 3, [1, 2, 3, 4, 5, 6]⟩ ⟨3, 2, [7, 8, 9, 10, 11, 12]⟩ 16 =
      .ok (some ⟨2, 2, [25, 28, 104, 82]⟩) ∧
    multiply_naive ⟨2, 3, [1, 2, 3, 4, 5, 6]⟩ ⟨3, 2, [7, 8, 9, 10, 11, 12]⟩ =
      .ok ⟨2, 2, [58, 64, 139, 154]⟩ ∧
    (⟨2, 2, [25, 28, 104, 82]⟩ : Matrix ℚ) ≠ ⟨2, 2, [58, 64, 139, 154]⟩ := by
  refine ⟨by decide, by decide, by decide⟩

/-- C5: when `A.cols != B.rows`, both multiplication routines fail with
DimensionMismatch at entry; no partial result matrix is produced. -/
theorem multiply_dimension_mismatch (A B : Matrix ℚ) (ts : ℕ)
    (h : A.ncol ≠ B.nrow) :
    multiply_naive A B = .error .dimensionMismatch ∧
    multiply_tile A B ts = .error .dimensionMismatch := by
  constructor
  · unfold multiply_naive
    rw [if_pos h]
  · unfold multiply_tile
    rw [if_pos h]

/-- Witness for C5: A 2×3 by B 2×2 (the spec's own example shapes). -/
theorem multiply_dimension_mismatch_witness :
    multiply_naive ⟨2, 3, [1, 2, 3, 4, 5, 6]⟩ ⟨2, 2, [1, 2, 3, 4]⟩ =
      .error .dimensionMismatch ∧
    multiply_tile ⟨2, 3, [1, 2, 3, 4, 5, 6]⟩ ⟨2, 2, [1, 2, 3, 4]⟩ 4 =
      .error .dimensionMismatch :=
  multiply_dimension_mismatch ⟨2, 3, [1, 2, 3, 4, 5, 6]⟩ ⟨2, 2, [1, 2, 3, 4]⟩ 4
    (by decide)

/-- C6: constructing from `(rows, cols, values)` fails with ShapeMismatch
exactly when `values.length ≠ rows*cols`, yielding no matrix at all, and
succeeds when the lengths agree. -/
theorem ofVec_shape_check (r c : ℕ) (v : List ℚ) :
    (v.length ≠ r * c → Matrix.ofVec ℚ r c v = .error .shapeMismatch) ∧
    (v.length = r * c → ∃ m, Matrix.ofVec ℚ r c v = .ok m) := by
  constructor
  · intro h
    unfold Matrix.ofVec Matrix.assign
    rw [if_pos]
    simpa [Matrix.construct] using fun hc => h hc.symm
  · intro h
    unfold Matrix.ofVec Matrix.assign
    rw [if_neg]
    · exact ⟨_, rfl⟩
    · simpa [Matrix.construct] using h.symm

/-- Witness for C6: a 5-element sequence cannot build a 2×3 matrix, a
6-element sequence can. -/
theorem ofVec_shape_check_witness :
    (([1, 2, 3, 4, 5] : List ℚ).length ≠ 2 * 3 ∧
      Matrix.ofVec ℚ 2 3 [1, 2, 3, 4, 5] = .error .shapeMismatch) ∧
    (∃ m, Matrix.ofVec ℚ 2 3 [1, 2, 3, 4, 5, 6] = .ok m) :=
  ⟨⟨by decide, (ofVec_shape_check 2 3 [1, 2, 3, 4, 5]).1 (by decide)⟩,
    (ofVec_shape_check 2 3 [1, 2, 3, 4, 5, 6]).2 (by decide)⟩

/-- C8: for matching shapes and any `tileSize ≥ 1`, `multiply_tile` runs to
completion and returns a matrix — every fuelled loop finishes — including
the degenerate tile sizes `1` and anything at least the operand
dimensions. -/
theorem multiply_tile_terminates (A B : Matrix ℚ) (ts : ℕ) (hts : 1 ≤ ts)
    (hdim : A.ncol = B.nrow) : ∃ C, multiply_tile A B ts = .ok (some C) := by
  unfold multiply_tile
  rw [if_neg (by simp [hdim])]
  obtain ⟨tis, e1⟩ := Option.isSome_iff_exists.mp
    (stepRange_isSome hts A.nrow 0 A.nrow (by omega))
  obtain ⟨tks, e2⟩ := Option.isSome_iff_exists.mp
    (stepRange_isSome hts B.ncol 0 B.ncol (by omega))
  obtain ⟨tjs, e3⟩ := Option.isSome_iff_exists.mp
    (stepRange_isSome hts A.ncol 0 A.ncol (by omega))
  rw [e1, e2, e3]
  exact ⟨_, rfl⟩

/-- Witness for C8: a 2×2 product with tile size 1 (and the result it
reaches). -/
theorem multiply_tile_terminates_witness :
    ∃ C, multiply_tile ⟨2, 2, [1, 2, 3, 4]⟩ ⟨2, 2, [5, 6, 7, 8]⟩ 1 =
      .ok (some C) :=
  multiply_tile_terminates ⟨2, 2, [1, 2, 3, 4]⟩ ⟨2, 2, [5, 6, 7, 8]⟩ 1
    (by decide) (by decide)

/-- Row-major flat index of an in-range cell is inside a `r*c` buffer. -/
theorem flat_lt {r c i j : ℕ} (hi : i < r) (hj : j < c) : c * i + j < r * c := by
  have h1 : c * (i + 1) ≤ c * r := Nat.mul_le_mul_left c hi
  rw [Nat.mul_succ] at h1
  have h2 : c * r = r * c := Nat.mul_comm c r
  omega

/-- Distinct in-range cells have distinct row-major flat indices. -/
theorem flat_ne {c i j i' j' : ℕ} (hj : j < c) (hj' : j' < c)
    (hne : i ≠ i' ∨ j ≠ j') : c * i + j ≠ c * i' + j' := by
  intro h
  have hii : i = i' := by
    by_contra hcon
    rcases Nat.lt_or_ge i i' with hlt | hge
    · have h1 : c * (i + 1) ≤ c * i' := Nat.mul_le_mul_left c hlt
      rw [Nat.mul_succ] at h1
      omega
    · have hlt : i' < i := by omega
      have h1 : c * (i' + 1) ≤ c * i := Nat.mul_le_mul_left c hlt
      rw [Nat.mul_succ] at h1
      omega
  subst hii
  rcases hne with h' | h' <;> [exact h' rfl; exact h' (by omega)]

@[simp] theorem Matrix.nrow_set (m : Matrix ℚ) (i j : ℕ) (v : ℚ) :
    (m.set i j v).nrow = m.nrow := rfl

@[simp] theorem Matrix.ncol_set (m : Matrix ℚ) (i j : ℕ) (v : ℚ) :
    (m.set i j v).ncol = m.ncol := rfl

@[simp] theorem Matrix.length_data_set (m : Matrix ℚ) (i j : ℕ) (v : ℚ) :
    (m.set i j v).data.length = m.data.length := List.length_set m.data _ _

/-- Writing a cell and reading it back yields the written value. -/
theorem Matrix.get_set_self (m : Matrix ℚ) (i j : ℕ) (v : ℚ)
    (hlen : m.data.length = m.nrow * m.ncol) (hi : i < m.nrow)
    (hj : j < m.ncol) : (m.set i j v).get i j = v := by
  have hidx : m.ncol * i + j < m.data.length := by
    rw [hlen]; exact flat_lt hi hj
  unfold Matrix.get Matrix.set
  simp only
  rw [List.getD_eq_getElem?_getD, List.getElem?_set_self hidx, Option.getD_some]

/-- Writing one cell leaves every other in-range column's cell unchanged. -/
theorem Matrix.get_set_ne (m : Matrix ℚ) {i j i' j' : ℕ} (v : ℚ)
    (hj : j < m.ncol) (hj' : j' < m.ncol) (hne : i ≠ i' ∨ j ≠ j') :
    (m.set i j v).get i' j' = m.get i' j' := by
  unfold Matrix.get Matrix.set
  simp only
  rw [List.getD_eq_getElem?_getD, List.getD_eq_getElem?_getD,
    List.getElem?_set_ne (flat_ne hj hj' hne)]

/-- Writing back the value a cell already holds changes nothing. -/
theorem Matrix.set_get_self (m : Matrix ℚ) (i j : ℕ)
    (hlen : m.data.length = m.nrow * m.ncol) (hi : i < m.nrow)
    (hj : j < m.ncol) : m.set i j (m.get i j) = m := by
  have hidx : m.ncol * i + j < m.data.length := by
    rw [hlen]; exact flat_lt hi hj
  have hdata : m.data.set (m.ncol * i + j) (m.data.getD (m.ncol * i + j) 0) =
      m.data := by
    apply List.ext_getElem?
    intro n
    by_cases hn : n = m.ncol * i + j
    · subst hn
      rw [List.getElem?_set_self hidx, List.getD_eq_getElem?_getD,
        List.getElem?_eq_getElem hidx, Option.getD_some]
    · rw [List.getElem?_set_ne (fun h => hn h.symm)]
  exact congrArg (Matrix.mk m.nrow m.ncol) hdata

/-- Overwriting the same cell twice keeps only the second write. -/
theorem Matrix.set_set (m : Matrix ℚ) (i j : ℕ) (v w : ℚ) :
    (m.set i j v).set i j w = m.set i j w := by
  unfold Matrix.set
  simp only
  exact congrArg (Matrix.mk m.nrow m.ncol) (List.set_set v w m.data _)

/-- An element of the freshly constructed (zero-filled) matrix is zero. -/
theorem Matrix.construct_get (r c i j : ℕ) :
    (Matrix.construct ℚ r c).get i j = 0 := by
  unfold Matrix.construct Matrix.get
  simp only
  rw [List.getD_eq_getElem?_getD, List.getElem?_replicate]
  split <;> rfl

/-- The innermost loop of `multiply_naive`: accumulating
`ret(i,k) += mat1(i,j) * mat2(j,k)` for `j < n` adds the partial dot
product to the cell in one step. -/
theorem naive_inner (A B : Matrix ℚ) (i k : ℕ) :
    ∀ (n : ℕ) (ret : Matrix ℚ), ret.data.length = ret.nrow * ret.ncol →
      i < ret.nrow → k < ret.ncol →
      (List.range n).foldl
        (fun r j => r.set i k (r.get i k + A.get i j * B.get j k)) ret =
      ret.set i k
        (ret.get i k + ∑ j ∈ Finset.range n, A.get i j * B.get j k) := by
  intro n
  induction n with
  | zero =>
      intro ret hlen hi hk
      rw [List.range_zero, List.foldl_nil, Finset.range_zero,
        Finset.sum_empty, add_zero, Matrix.set_get_self ret i k hlen hi hk]
  | succ n ih =>
      intro ret hlen hi hk
      rw [List.range_succ, List.foldl_append, List.foldl_cons, List.foldl_nil,
        ih ret hlen hi hk]
      rw [Matrix.get_set_self ret i k _ hlen hi hk, Matrix.set_set,
        Finset.sum_range_succ, add_assoc]

/-- The middle loop of `multiply_naive` for a fixed row `i`: after the
first `n` columns, exactly the cells `(i, k')` with `k' < n` carry the
added dot products; everything else is untouched. -/
theorem naive_middle (A B : Matrix ℚ) (i : ℕ) :
    ∀ (n : ℕ) (ret : Matrix ℚ), ret.data.length = ret.nrow * ret.ncol →
      i < ret.nrow → n ≤ ret.ncol →
      ((List.range n).foldl (fun r k =>
          (List.range A.ncol).foldl
            (fun r j => r.set i k (r.get i k + A.get i j * B.get j k)) r)
        ret).nrow = ret.nrow ∧
      ((List.range n).foldl (fun r k =>
          (List.range A.ncol).foldl
            (fun r j => r.set i k (r.get i k + A.get i j * B.get j k)) r)
        ret).ncol = ret.ncol ∧
      ((List.range n).foldl (fun r k =>
          (List.range A.ncol).foldl
            (fun r j => r.set i k (r.get i k + A.get i j * B.get j k)) r)
        ret).data.length = ret.data.length ∧
      ∀ i' k', i' < ret.nrow → k' < ret.ncol →
        ((List.range n).foldl (fun r k =>
            (List.range A.ncol).foldl
              (fun r j => r.set i k (r.get i k + A.get i j * B.get j k)) r)
          ret).get i' k' =
        if i' = i ∧ k' < n then
          ret.get i' k' + ∑ j ∈ Finset.range A.ncol, A.get i' j * B.get j k'
        else ret.get i' k' := by
  intro n
  induction n with
  | zero =>
      intro ret hlen hi hn
      refine ⟨rfl, rfl, rfl, fun i' k' hi' hk' => ?_⟩
      rw [List.range_zero, List.foldl_nil, if_neg (by omega)]
  | succ n ih =>
      intro ret hlen hi hn
      obtain ⟨h1, h2, h3, h4⟩ := ih ret hlen hi (by omega)
      set M := (List.range n).foldl (fun r k =>
          (List.range A.ncol).foldl
            (fun r j => r.set i k (r.get i k + A.get i j * B.get j k)) r)
        ret with hM
      have hMlen : M.data.length = M.nrow * M.ncol := by
        rw [h1, h2, h3, hlen]
      have hstep : (List.range (n + 1)).foldl (fun r k =>
          (List.range A.ncol).foldl
            (fun r j => r.set i k (r.get i k + A.get i j * B.get j k)) r)
          ret =
          M.set i n (M.get i n + ∑ j ∈ Finset.range A.ncol,
            A.get i j * B.get j n) := by
        rw [List.range_succ, List.foldl_append, List.foldl_cons,
          List.foldl_nil, ← hM,
          naive_inner A B i n A.ncol M hMlen (by omega) (by omega)]
      rw [hstep]
      refine ⟨by simp [h1], by simp [h2], by simp [h3],
        fun i' k' hi' hk' => ?_⟩
      by_cases hcell : i' = i ∧ k' = n
      · obtain ⟨hii, hkk⟩ := hcell
        subst hii hkk
        rw [Matrix.get_set_self M i' k' _ hMlen (by omega) (by omega),
          h4 i' k' hi' hk', if_neg (by omega), if_pos (by omega)]
      · have hne : i ≠ i' ∨ n ≠ k' := by
          by_contra hcon
          push_neg at hcon
          exact hcell ⟨hcon.1.symm, hcon.2.symm⟩
        rw [Matrix.get_set_ne M _ (by omega) (by omega) hne,
          h4 i' k' hi' hk']
        by_cases hif : i' = i ∧ k' < n
        · rw [if_pos hif, if_pos (by omega)]
        · rw [if_neg hif, if_neg (by
            rintro ⟨ha, hb⟩
            rcases hne with h' | h'
            · exact h' ha.symm
            · exact hif ⟨ha, by omega⟩)]

/-- The outer loop of `multiply_naive`: after the first `n` rows, exactly
the rows `i < n` hold the added dot products. -/
theorem naive_outer (A B : Matrix ℚ) :
    ∀ (n : ℕ) (ret : Matrix ℚ), ret.data.length = ret.nrow * ret.ncol →
      n ≤ ret.nrow → ret.ncol = B.ncol →
      ((List.range n).foldl (fun r i =>
          (List.range B.ncol).foldl (fun r k =>
            (List.range A.ncol).foldl
              (fun r j => r.set i k (r.get i k + A.get i j * B.get j k)) r)
            r) ret).nrow = ret.nrow ∧
      ((List.range n).foldl (fun r i =>
          (List.range B.ncol).foldl (fun r k =>
            (List.range A.ncol).foldl
              (fun r j => r.set i k (r.get i k + A.get i j * B.get j k)) r)
            r) ret).ncol = ret.ncol ∧
      ((List.range n).foldl (fun r i =>
          (List.range B.ncol).foldl (fun r k =>
            (List.range A.ncol).foldl
              (fun r j => r.set i k (r.get i k + A.get i j * B.get j k)) r)
            r) ret).data.length = ret.data.length ∧
      ∀ i k, i < ret.nrow → k < ret.ncol →
        ((List.range n).foldl (fun r i =>
            (List.range B.ncol).foldl (fun r k =>
              (List.range A.ncol).foldl
                (fun r j => r.set i k (r.get i k + A.get i j * B.get j k)) r)
              r) ret).get i k =
        if i < n then
          ret.get i k + ∑ j ∈ Finset.range A.ncol, A.get i j * B.get j k
        else ret.get i k := by
  intro n
  induction n with
  | zero =>
      intro ret hlen hn hcol
      refine ⟨rfl, rfl, rfl, fun i k hi hk => ?_⟩
      rw [List.range_zero, List.foldl_nil, if_neg (by omega)]
  | succ n ih =>
      intro ret hlen hn hcol
      obtain ⟨h1, h2, h3, h4⟩ := ih ret hlen (by omega) hcol
      set M := (List.range n).foldl (fun r i =>
          (List.range B.ncol).foldl (fun r k =>
            (List.range A.ncol).foldl
              (fun r j => r.set i k (r.get i k + A.get i j * B.get j k)) r)
            r) ret with hM
      have hMlen : M.data.length = M.nrow * M.ncol := by
        rw [h1, h2, h3, hlen]
      obtain ⟨g1, g2, g3, g4⟩ := naive_middle A B n B.ncol M hMlen
        (by omega) (by rw [h2, hcol])
      have hstep : (List.range (n + 1)).foldl (fun r i =>
          (List.range B.ncol).foldl (fun r k =>
            (List.range A.ncol).foldl
              (fun r j => r.set i k (r.get i k + A.get i j * B.get j k)) r)
            r) ret =
          (List.range B.ncol).foldl (fun r k =>
            (List.range A.ncol).foldl
              (fun r j => r.set n k (r.get n k + A.get n j * B.get j k)) r)
            M := by
        rw [List.range_succ, List.foldl_append, List.foldl_cons,
          List.foldl_nil, ← hM]
      rw [hstep]
      refine ⟨by rw [g1, h1], by rw [g2, h2], by rw [g3, h3],
        fun i k hi hk => ?_⟩
      rw [g4 i k (by omega) (by omega), h4 i k hi hk]
      by_cases hrow : i = n
      · subst hrow
        rw [if_pos ⟨rfl, by omega⟩, if_neg (by omega), if_pos (by omega)]
      · rw [if_neg (by rintro ⟨ha, -⟩; exact hrow ha)]
        by_cases hlt : i < n
        · rw [if_pos hlt, if_pos (by omega)]
        · rw [if_neg hlt, if_neg (by omega)]

/-- C2: for `A.cols == B.rows`, `multiply_naive` returns a matrix of shape
`(A.rows, B.cols)` whose element `(i, k)` is the dot product
`∑ j < A.cols, A(i,j) * B(j,k)` accumulated over a zero-initialized
result. -/
theorem multiply_naive_correct (A B : Matrix ℚ) (hdim : A.ncol = B.nrow) :
    ∃ C, multiply_naive A B = .ok C ∧ C.nrow = A.nrow ∧ C.ncol = B.ncol ∧
      C.data.length = C.nrow * C.ncol ∧
      ∀ i k, i < C.nrow → k < C.ncol →
        C.get i k = ∑ j ∈ Finset.range A.ncol, A.get i j * B.get j k := by
  have hlen0 : (Matrix.construct ℚ A.nrow B.ncol).data.length =
      (Matrix.construct ℚ A.nrow B.ncol).nrow *
        (Matrix.construct ℚ A.nrow B.ncol).ncol := by
    simp [Matrix.construct]
  obtain ⟨h1, h2, h3, h4⟩ := naive_outer A B A.nrow
    (Matrix.construct ℚ A.nrow B.ncol) hlen0 (by rfl) (by rfl)
  unfold multiply_naive
  rw [if_neg (by simp [hdim])]
  refine ⟨_, rfl, by rw [h1]; rfl, by rw [h2]; rfl, ?_, ?_⟩
  · rw [h3, h1, h2]
    simp [Matrix.construct]
  · intro i k hi hk
    rw [h1] at hi
    rw [h2] at hk
    have hiA : i < A.nrow := hi
    rw [h4 i k hi hk, if_pos hiA, Matrix.construct_get, zero_add]

/-- Witness for C2: the spec's concrete instance — A = [[1,2,3],[4,5,6]],
B = [[7,8],[9,10],[11,12]] multiply to [[58,64],[139,154]]. -/
theorem multiply_naive_correct_witness :
    (∃ C, multiply_naive ⟨2, 3, [1, 2, 3, 4, 5, 6]⟩
        ⟨3, 2, [7, 8, 9, 10, 11, 12]⟩ = .ok C ∧
      C.nrow = 2 ∧ C.ncol = 2 ∧ C.data.length = C.nrow * C.ncol ∧
      ∀ i k, i < C.nrow → k < C.ncol →
        C.get i k = ∑ j ∈ Finset.range 3,
          (Matrix.mk 2 3 [1, 2, 3, 4, 5, 6] : Matrix ℚ).get i j *
            (Matrix.mk 3 2 [7, 8, 9, 10, 11, 12] : Matrix ℚ).get j k) ∧
    multiply_naive ⟨2, 3, [1, 2, 3, 4, 5, 6]⟩ ⟨3, 2, [7, 8, 9, 10, 11, 12]⟩ =
      .ok ⟨2, 2, [58, 64, 139, 154]⟩ :=
  ⟨multiply_naive_correct ⟨2, 3, [1, 2, 3, 4, 5, 6]⟩
      ⟨3, 2, [7, 8, 9, 10, 11, 12]⟩ (by decide),
    by decide⟩

/-- The inner loop of `operator=(vector)` on row `i`: writes
`vec[k]`, `vec[k+1]`, … into columns `0, 1, …` of row `i`, advancing the
counter by one per column. -/
theorem assign_inner (vec : List ℚ) (i : ℕ) :
    ∀ (n : ℕ) (P : Matrix ℚ × ℕ), P.1.data.length = P.1.nrow * P.1.ncol →
      i < P.1.nrow → n ≤ P.1.ncol →
      ((List.range n).foldl
          (fun q j => (q.1.set i j (vec.getD q.2 0), q.2 + 1)) P).2 =
        P.2 + n ∧
      ((List.range n).foldl
          (fun q j => (q.1.set i j (vec.getD q.2 0), q.2 + 1)) P).1.nrow =
        P.1.nrow ∧
      ((List.range n).foldl
          (fun q j => (q.1.set i j (vec.getD q.2 0), q.2 + 1)) P).1.ncol =
        P.1.ncol ∧
      ((List.range n).foldl
          (fun q j => (q.1.set i j (vec.getD q.2 0), q.2 + 1))
        P).1.data.length = P.1.data.length ∧
      ∀ i' j', i' < P.1.nrow → j' < P.1.ncol →
        ((List.range n).foldl
            (fun q j => (q.1.set i j (vec.getD q.2 0), q.2 + 1)) P).1.get
          i' j' =
        if i' = i ∧ j' < n then vec.getD (P.2 + j') 0 else P.1.get i' j' := by
  intro n
  induction n with
  | zero =>
      intro P hlen hi hn
      refine ⟨rfl, rfl, rfl, rfl, fun i' j' hi' hj' => ?_⟩
      rw [List.range_zero, List.foldl_nil, if_neg (by omega)]
  | succ n ih =>
      intro P hlen hi hn
      obtain ⟨h0, h1, h2, h3, h4⟩ := ih P hlen hi (by omega)
      set Q := (List.range n).foldl
        (fun q j => (q.1.set i j (vec.getD q.2 0), q.2 + 1)) P with hQ
      have hQlen : Q.1.data.length = Q.1.nrow * Q.1.ncol := by
        rw [h1, h2, h3, hlen]
      have hstep : (List.range (n + 1)).foldl
          (fun q j => (q.1.set i j (vec.getD q.2 0), q.2 + 1)) P =
          (Q.1.set i n (vec.getD Q.2 0), Q.2 + 1) := by
        rw [List.range_succ, List.foldl_append, List.foldl_cons,
          List.foldl_nil, ← hQ]
      rw [hstep]
      refine ⟨by rw [h0]; omega, by simp [h1], by simp [h2], by simp [h3],
        fun i' j' hi' hj' => ?_⟩
      by_cases hcell : i' = i ∧ j' = n
      · obtain ⟨hii, hjj⟩ := hcell
        subst hii hjj
        rw [Matrix.get_set_self Q.1 i' j' _ hQlen (by omega) (by omega),
          if_pos (by omega), h0]
      · have hne : i ≠ i' ∨ n ≠ j' := by
          by_contra hcon
          push_neg at hcon
          exact hcell ⟨hcon.1.symm, hcon.2.symm⟩
        rw [Matrix.get_set_ne Q.1 _ (by omega) (by omega) hne,
          h4 i' j' hi' hj']
        by_cases hif : i' = i ∧ j' < n
        · rw [if_pos hif, if_pos (by omega)]
        · rw [if_neg hif, if_neg (by
            rintro ⟨ha, hb⟩
            rcases hne with h' | h'
            · exact h' ha.symm
            · exact hif ⟨ha, by omega⟩)]

/-- The double loop of `operator=(vector)`: after the first `n` rows the
counter is `n * ncol` further and row `i < n`, column `j` holds
`vec[k0 + ncol*i + j]`. -/
theorem assign_outer (vec : List ℚ) (c : ℕ) :
    ∀ (n : ℕ) (P : Matrix ℚ × ℕ), P.1.data.length = P.1.nrow * P.1.ncol →
      n ≤ P.1.nrow → P.1.ncol = c →
      ((List.range n).foldl (fun p i =>
          (List.range c).foldl
            (fun q j => (q.1.set i j (vec.getD q.2 0), q.2 + 1)) p) P).2 =
        P.2 + n * c ∧
      ((List.range n).foldl (fun p i =>
          (List.range c).foldl
            (fun q j => (q.1.set i j (vec.getD q.2 0), q.2 + 1)) p)
        P).1.nrow = P.1.nrow ∧
      ((List.range n).foldl (fun p i =>
          (List.range c).foldl
            (fun q j => (q.1.set i j (vec.getD q.2 0), q.2 + 1)) p)
        P).1.ncol = P.1.ncol ∧
      ((List.range n).foldl (fun p i =>
          (List.range c).foldl
            (fun q j => (q.1.set i j (vec.getD q.2 0), q.2 + 1)) p)
        P).1.data.length = P.1.data.length ∧
      ∀ i j, i < P.1.nrow → j < P.1.ncol →
        ((List.range n).foldl (fun p i =>
            (List.range c).foldl
              (fun q j => (q.1.set i j (vec.getD q.2 0), q.2 + 1)) p)
          P).1.get i j =
        if i < n then vec.getD (P.2 + (c * i + j)) 0 else P.1.get i j := by
  intro n
  induction n with
  | zero =>
      intro P hlen hn hc
      rw [List.range_zero, List.foldl_nil]
      refine ⟨by omega, rfl, rfl, rfl,
        fun i j hi hj => by rw [if_neg (by omega)]⟩
  | succ n ih =>
      intro P hlen hn hc
      obtain ⟨h0, h1, h2, h3, h4⟩ := ih P hlen (by omega) hc
      set Q := (List.range n).foldl (fun p i =>
          (List.range c).foldl
            (fun q j => (q.1.set i j (vec.getD q.2 0), q.2 + 1)) p) P
        with hQ
      have hQlen : Q.1.data.length = Q.1.nrow * Q.1.ncol := by
        rw [h1, h2, h3, hlen]
      obtain ⟨g0, g1, g2, g3, g4⟩ := assign_inner vec n c Q hQlen
        (by omega) (by rw [h2, hc])
      have hstep : (List.range (n + 1)).foldl (fun p i =>
          (List.range c).foldl
            (fun q j => (q.1.set i j (vec.getD q.2 0), q.2 + 1)) p) P =
          (List.range c).foldl
            (fun q j => (q.1.set n j (vec.getD q.2 0), q.2 + 1)) Q := by
        rw [List.range_succ, List.foldl_append, List.foldl_cons,
          List.foldl_nil, ← hQ]
      rw [hstep]
      refine ⟨by rw [g0, h0]; ring, by rw [g1, h1], by rw [g2, h2],
        by rw [g3, h3], fun i j hi hj => ?_⟩
      rw [g4 i j (by omega) (by omega), h0]
      by_cases hrow : i = n
      · subst hrow
        rw [if_pos ⟨rfl, by omega⟩, if_pos (by omega)]
        congr 1
        ring
      · rw [if_neg (by rintro ⟨ha, -⟩; exact hrow ha),
          h4 i j hi hj]
        by_cases hlt : i < n
        · rw [if_pos hlt, if_pos (by omega)]
        · rw [if_neg hlt, if_neg (by omega)]

/-- `operator=(vector)` with a length-matching vector succeeds and leaves
the buffer exactly equal to the vector (row-major import). -/
theorem assign_spec (m : Matrix ℚ) (vec : List ℚ)
    (hm : m.data.length = m.nrow * m.ncol)
    (hv : vec.length = m.nrow * m.ncol) :
    ∃ M, m.assign vec = .ok M ∧ M.nrow = m.nrow ∧ M.ncol = m.ncol ∧
      M.data = vec := by
  unfold Matrix.assign
  rw [if_neg (by omega)]
  obtain ⟨h0, h1, h2, h3, h4⟩ := assign_outer vec m.ncol m.nrow (m, 0) hm
    (le_refl _) rfl
  refine ⟨_, rfl, h1, h2, ?_⟩
  have hcpos : ∀ t, t < m.nrow * m.ncol → 0 < m.ncol := by
    intro t ht
    rcases Nat.eq_zero_or_pos m.ncol with h | h
    · rw [h, Nat.mul_zero] at ht; omega
    · exact h
  apply List.ext_getElem (by rw [h3, hm, hv])
  intro t ht1 ht2
  have htlen : t < m.nrow * m.ncol := by
    rw [h3, hm] at ht1
    exact ht1
  have hc : 0 < m.ncol := hcpos t htlen
  have hi : t / m.ncol < m.nrow := by
    rw [Nat.div_lt_iff_lt_mul hc]
    omega
  have hj : t % m.ncol < m.ncol := Nat.mod_lt _ hc
  have hsplit : m.ncol * (t / m.ncol) + t % m.ncol = t := Nat.div_add_mod t m.ncol
  have hget := h4 (t / m.ncol) (t % m.ncol) hi hj
  rw [if_pos hi] at hget
  unfold Matrix.get at hget
  rw [h2, hsplit] at hget
  rw [← List.getD_eq_getElem _ 0 ht1, ← List.getD_eq_getElem _ 0 ht2]
  rw [hget]
  simp

/-- C7: importing a flat sequence of length `rows*cols` and exporting it
again is the identity. -/
theorem ofVec_to_vector_roundtrip (r c : ℕ) (v : List ℚ)
    (hlen : v.length = r * c) :
    ∃ M, Matrix.ofVec ℚ r c v = .ok M ∧ M.to_vector = v := by
  obtain ⟨M, hok, h1, h2, h3⟩ := assign_spec (Matrix.construct ℚ r c) v
    (by simp [Matrix.construct]) (by simpa [Matrix.construct] using hlen)
  refine ⟨M, hok, ?_⟩
  unfold Matrix.to_vector
  rw [h3, h1, h2]
  show v.take ((Matrix.construct ℚ r c).nrow * (Matrix.construct ℚ r c).ncol) = v
  have : (Matrix.construct ℚ r c).nrow * (Matrix.construct ℚ r c).ncol =
      v.length := by simpa [Matrix.construct] using hlen.symm
  rw [this, List.take_length]

/-- Witness for C7: the round trip at a concrete 2×3 matrix. -/
theorem ofVec_to_vector_roundtrip_witness :
    ∃ M, Matrix.ofVec ℚ 2 3 [1, 2, 3, 4, 5, 6] = .ok M ∧
      M.to_vector = [1, 2, 3, 4, 5, 6] :=
  ofVec_to_vector_roundtrip 2 3 [1, 2, 3, 4, 5, 6] (by decide)

/-- A `foldl` whose step preserves a predicate preserves it overall
(generic version, used for stores and matrices alike). -/
theorem foldl_invariant {σ β : Type} (p : σ → Prop) (f : σ → β → σ)
    (hf : ∀ x b, p x → p (f x b)) :
    ∀ (l : List β) (x : σ), p x → p (l.foldl f x) := by
  intro l
  induction l with
  | nil => intro x hx; exact hx
  | cons b bs ih => intro x hx; exact ih (f x b) (hf x b hx)

/-- Shape preservation through a matrix-valued `foldl`: when every step
keeps the dimensions and the buffer length, so does the whole loop. -/
theorem foldl_matrix_shape (r c L : ℕ) (f : Matrix ℚ → ℕ → Matrix ℚ)
    (hf : ∀ m b, m.nrow = r → m.ncol = c → m.data.length = L →
      (f m b).nrow = r ∧ (f m b).ncol = c ∧ (f m b).data.length = L) :
    ∀ (l : List ℕ) (m : Matrix ℚ), m.nrow = r → m.ncol = c →
      m.data.length = L →
      (l.foldl f m).nrow = r ∧ (l.foldl f m).ncol = c ∧
        (l.foldl f m).data.length = L := by
  intro l
  induction l with
  | nil => intro m h1 h2 h3; exact ⟨h1, h2, h3⟩
  | cons b bs ih =>
      intro m h1 h2 h3
      obtain ⟨g1, g2, g3⟩ := hf m b h1 h2 h3
      exact ih (f m b) g1 g2 g3

/-- Unfolding of the invariant for a null buffer pointer. -/
theorem MatrixRef.WF_none (m : MatrixRef) (s : Store) (h : m.data = none) :
    m.WF s ↔ m.nrow * m.ncol = 0 := by
  unfold MatrixRef.WF
  rw [h]

/-- Unfolding of the invariant for an owning buffer pointer. -/
theorem MatrixRef.WF_some (m : MatrixRef) (s : Store) (b : ℕ)
    (h : m.data = some b) :
    m.WF s ↔
      b < s.next ∧ (s.mem b).length = m.nrow * m.ncol ∧
        m.nrow * m.ncol ≠ 0 := by
  unfold MatrixRef.WF
  rw [h]

@[simp] theorem MatrixRef.next_set (m : MatrixRef) (s : Store) (i j : ℕ)
    (v : ℚ) : (m.set s i j v).next = s.next := by
  unfold MatrixRef.set
  cases m.data <;> rfl

/-- An element write never changes any buffer's length. -/
theorem MatrixRef.length_mem_set (m : MatrixRef) (s : Store) (i j : ℕ)
    (v : ℚ) (b : ℕ) : ((m.set s i j v).mem b).length = (s.mem b).length := by
  unfold MatrixRef.set
  cases m.data with
  | none => rfl
  | some bm =>
      show (if b = bm then (s.mem bm).set (m.ncol * i + j) v
        else s.mem b).length = _
      by_cases hb : b = bm
      · subst hb
        rw [if_pos rfl, List.length_set]
      · rw [if_neg hb]

/-- An element write touches no buffer other than the matrix's own. -/
theorem MatrixRef.mem_set_ne (m : MatrixRef) (s : Store) (i j : ℕ) (v : ℚ)
    (b : ℕ) (hb : m.data ≠ some b) : (m.set s i j v).mem b = s.mem b := by
  unfold MatrixRef.set
  cases hd : m.data with
  | none => rfl
  | some bm =>
      show (if b = bm then (s.mem bm).set (m.ncol * i + j) v
        else s.mem b) = s.mem b
      rw [if_neg (fun h => hb (by rw [hd, h]))]

/-- A read only depends on the matrix's own buffer. -/
theorem MatrixRef.get_eq_of_mem_eq (m : MatrixRef) (s t : Store) (i j : ℕ)
    (h : ∀ b, m.data = some b → t.mem b = s.mem b) :
    m.get t i j = m.get s i j := by
  unfold MatrixRef.get
  cases hd : m.data with
  | none => rfl
  | some bm =>
      show (t.mem bm).getD (m.ncol * i + j) 0 =
        (s.mem bm).getD (m.ncol * i + j) 0
      rw [h bm hd]

/-- Store-level write-then-read of the same in-range cell. -/
theorem MatrixRef.get_set_self_s (m : MatrixRef) (s : Store) (i j : ℕ)
    (v : ℚ) (bm : ℕ) (hd : m.data = some bm)
    (hlen : (s.mem bm).length = m.nrow * m.ncol) (hi : i < m.nrow)
    (hj : j < m.ncol) : m.get (m.set s i j v) i j = v := by
  unfold MatrixRef.get MatrixRef.set
  rw [hd]
  show ((if bm = bm then (s.mem bm).set (m.ncol * i + j) v
    else s.mem bm)).getD (m.ncol * i + j) 0 = v
  rw [if_pos rfl, List.getD_eq_getElem?_getD,
    List.getElem?_set_self (by rw [hlen]; exact flat_lt hi hj),
    Option.getD_some]

/-- Store-level write of one cell leaves the matrix's other in-range cells
unchanged. -/
theorem MatrixRef.get_set_ne_s (m : MatrixRef) (s : Store) {i j i' j' : ℕ}
    (v : ℚ) (hj : j < m.ncol) (hj' : j' < m.ncol)
    (hne : i ≠ i' ∨ j ≠ j') :
    m.get (m.set s i j v) i' j' = m.get s i' j' := by
  unfold MatrixRef.get MatrixRef.set
  cases hd : m.data with
  | none => rfl
  | some bm =>
      show ((if bm = bm then (s.mem bm).set (m.ncol * i + j) v
        else s.mem bm)).getD (m.ncol * i' + j') 0 =
        (s.mem bm).getD (m.ncol * i' + j') 0
      rw [if_pos rfl, List.getD_eq_getElem?_getD, List.getD_eq_getElem?_getD,
        List.getElem?_set_ne (flat_ne hj hj' hne)]

/-- The element-copy loop never changes the allocation counter. -/
theorem copyLoop_next (s : Store) (dst src : MatrixRef) :
    (copyLoop s dst src).next = s.next := by
  unfold copyLoop
  refine foldl_invariant (fun x => x.next = s.next) _ ?_ _ s rfl
  intro x i hx
  refine foldl_invariant (fun y => y.next = s.next) _ ?_ _ x hx
  intro y j hy
  rw [MatrixRef.next_set, hy]

/-- The element-copy loop never changes any buffer's length. -/
theorem copyLoop_length (s : Store) (dst src : MatrixRef) (b : ℕ) :
    ((copyLoop s dst src).mem b).length = (s.mem b).length := by
  unfold copyLoop
  refine foldl_invariant (fun x => (x.mem b).length = (s.mem b).length)
    _ ?_ _ s rfl
  intro x i hx
  refine foldl_invariant (fun y => (y.mem b).length = (s.mem b).length)
    _ ?_ _ x hx
  intro y j hy
  rw [MatrixRef.length_mem_set, hy]

/-- The element-copy loop writes only into the destination's buffer. -/
theorem copyLoop_frame (s : Store) (dst src : MatrixRef) (b : ℕ)
    (hb : dst.data ≠ some b) : (copyLoop s dst src).mem b = s.mem b := by
  unfold copyLoop
  refine foldl_invariant (fun x => x.mem b = s.mem b) _ ?_ _ s rfl
  intro x i hx
  refine foldl_invariant (fun y => y.mem b = s.mem b) _ ?_ _ x hx
  intro y j hy
  rw [MatrixRef.mem_set_ne _ _ _ _ _ _ hb, hy]

/-- One row of the element-copy loop: columns `j < n` of row `i` of the
destination receive the source's values as they were before the row
started; nothing else changes. -/
theorem copy_inner (dst src : MatrixRef) (bd : ℕ) (hdst : dst.data = some bd)
    (hsrc : src.data ≠ some bd) (i : ℕ) :
    ∀ (n : ℕ) (s : Store), (s.mem bd).length = dst.nrow * dst.ncol →
      i < dst.nrow → n ≤ dst.ncol →
      ((List.range n).foldl
          (fun t j => dst.set t i j (src.get t i j)) s).next = s.next ∧
      (∀ b, (((List.range n).foldl
          (fun t j => dst.set t i j (src.get t i j)) s).mem b).length =
        (s.mem b).length) ∧
      (∀ b, b ≠ bd → ((List.range n).foldl
          (fun t j => dst.set t i j (src.get t i j)) s).mem b = s.mem b) ∧
      ∀ i' j', i' < dst.nrow → j' < dst.ncol →
        dst.get ((List.range n).foldl
            (fun t j => dst.set t i j (src.get t i j)) s) i' j' =
        if i' = i ∧ j' < n then src.get s i' j' else dst.get s i' j' := by
  intro n
  induction n with
  | zero =>
      intro s hlen hi hn
      rw [List.range_zero, List.foldl_nil]
      exact ⟨rfl, fun b => rfl, fun b _ => rfl,
        fun i' j' hi' hj' => by rw [if_neg (by omega)]⟩
  | succ n ih =>
      intro s hlen hi hn
      obtain ⟨h0, h1, h2, h3⟩ := ih s hlen hi (by omega)
      set T := (List.range n).foldl
        (fun t j => dst.set t i j (src.get t i j)) s with hT
      have hTlen : (T.mem bd).length = dst.nrow * dst.ncol := by
        rw [h1 bd, hlen]
      have hsrcT : ∀ b, src.data = some b → T.mem b = s.mem b := by
        intro b hb
        refine h2 b ?_
        intro hbd
        exact hsrc (by rw [hb, hbd])
      have hsrcget : ∀ i' j', src.get T i' j' = src.get s i' j' :=
        fun i' j' => MatrixRef.get_eq_of_mem_eq src s T i' j' hsrcT
      have hstep : (List.range (n + 1)).foldl
          (fun t j => dst.set t i j (src.get t i j)) s =
          dst.set T i n (src.get T i n) := by
        rw [List.range_succ, List.foldl_append, List.foldl_cons,
          List.foldl_nil, ← hT]
      rw [hstep]
      refine ⟨by rw [MatrixRef.next_set, h0],
        fun b => by rw [MatrixRef.length_mem_set, h1 b],
        fun b hb => by
          rw [MatrixRef.mem_set_ne _ _ _ _ _ _
              (by rw [hdst]; exact fun h => hb (Option.some.inj h).symm),
            h2 b hb],
        fun i' j' hi' hj' => ?_⟩
      by_cases hcell : i' = i ∧ j' = n
      · obtain ⟨hii, hjj⟩ := hcell
        rw [hii, hjj,
          MatrixRef.get_set_self_s dst T i n (src.get T i n) bd hdst hTlen hi
            (by omega),
          hsrcget i n, if_pos ⟨rfl, by omega⟩]
      · have hne : i ≠ i' ∨ n ≠ j' := by
          by_contra hcon
          push_neg at hcon
          exact hcell ⟨hcon.1.symm, hcon.2.symm⟩
        rw [MatrixRef.get_set_ne_s dst T (src.get T i n) (by omega) hj' hne,
          h3 i' j' hi' hj']
        by_cases hif : i' = i ∧ j' < n
        · rw [if_pos hif, if_pos (by omega)]
        · rw [if_neg hif, if_neg (by
            rintro ⟨ha, hb⟩
            rcases hne with h' | h'
            · exact h' ha.symm
            · exact hif ⟨ha, by omega⟩)]

/-- The whole element-copy loop: every in-range destination cell receives
the source's original value; nothing else changes. -/
theorem copy_outer (dst src : MatrixRef) (bd : ℕ) (hdst : dst.data = some bd)
    (hsrc : src.data ≠ some bd) :
    ∀ (n : ℕ) (s : Store), (s.mem bd).length = dst.nrow * dst.ncol →
      n ≤ dst.nrow →
      ((List.range n).foldl (fun t i =>
          (List.range dst.ncol).foldl
            (fun t j => dst.set t i j (src.get t i j)) t) s).next = s.next ∧
      (∀ b, (((List.range n).foldl (fun t i =>
          (List.range dst.ncol).foldl
            (fun t j => dst.set t i j (src.get t i j)) t) s).mem b).length =
        (s.mem b).length) ∧
      (∀ b, b ≠ bd → ((List.range n).foldl (fun t i =>
          (List.range dst.ncol).foldl
            (fun t j => dst.set t i j (src.get t i j)) t) s).mem b =
        s.mem b) ∧
      ∀ i j, i < dst.nrow → j < dst.ncol →
        dst.get ((List.range n).foldl (fun t i =>
            (List.range dst.ncol).foldl
              (fun t j => dst.set t i j (src.get t i j)) t) s) i j =
        if i < n then src.get s i j else dst.get s i j := by
  intro n
  induction n with
  | zero =>
      intro s hlen hn
      rw [List.range_zero, List.foldl_nil]
      exact ⟨rfl, fun b => rfl, fun b _ => rfl,
        fun i j hi hj => by rw [if_neg (by omega)]⟩
  | succ n ih =>
      intro s hlen hn
      obtain ⟨h0, h1, h2, h3⟩ := ih s hlen (by omega)
      set T := (List.range n).foldl (fun t i =>
          (List.range dst.ncol).foldl
            (fun t j => dst.set t i j (src.get t i j)) t) s with hT
      have hTlen : (T.mem bd).length = dst.nrow * dst.ncol := by
        rw [h1 bd, hlen]
      obtain ⟨g0, g1, g2, g3⟩ := copy_inner dst src bd hdst hsrc n dst.ncol T
        hTlen (by omega) (le_refl _)
      have hsrcT : ∀ i' j', src.get T i' j' = src.get s i' j' := by
        intro i' j'
        refine MatrixRef.get_eq_of_mem_eq src s T i' j' ?_
        intro b hb
        refine h2 b ?_
        intro hbd
        exact hsrc (by rw [hb, hbd])
      have hstep : (List.range (n + 1)).foldl (fun t i =>
          (List.range dst.ncol).foldl
            (fun t j => dst.set t i j (src.get t i j)) t) s =
          (List.range dst.ncol).foldl
            (fun t j => dst.set t n j (src.get t n j)) T := by
        rw [List.range_succ, List.foldl_append, List.foldl_cons,
          List.foldl_nil, ← hT]
      rw [hstep]
      refine ⟨by rw [g0, h0], fun b => by rw [g1 b, h1 b],
        fun b hb => by rw [g2 b hb, h2 b hb], fun i j hi hj => ?_⟩
      rw [g3 i j hi hj]
      by_cases hrow : i = n
      · subst hrow
        rw [if_pos ⟨rfl, by omega⟩, hsrcT i j, if_pos (by omega)]
      · rw [if_neg (by rintro ⟨ha, -⟩; exact hrow ha), h3 i j hi hj]
        by_cases hlt : i < n
        · rw [if_pos hlt, if_pos (by omega)]
        · rw [if_neg hlt, if_neg (by omega)]

/-- `copyLoop` as the source uses it: with a well-sized destination buffer
distinct from the source's, every in-range destination cell ends up holding
the source's original value. -/
theorem copyLoop_get (dst src : MatrixRef) (bd : ℕ) (hdst : dst.data = some bd)
    (hsrc : src.data ≠ some bd) (s : Store)
    (hlen : (s.mem bd).length = dst.nrow * dst.ncol) :
    ∀ i j, i < dst.nrow → j < dst.ncol →
      dst.get (copyLoop s dst src) i j = src.get s i j := by
  intro i j hi hj
  obtain ⟨-, -, -, g3⟩ := copy_outer dst src bd hdst hsrc dst.nrow s hlen
    (le_refl _)
  unfold copyLoop
  rw [g3 i j hi hj, if_pos hi]

/-- The copy loop is the identity when the destination owns no buffer. -/
theorem copyLoop_null (s : Store) (dst src : MatrixRef)
    (h : dst.data = none) : copyLoop s dst src = s := by
  unfold copyLoop
  refine foldl_invariant (fun x => x = s) _ ?_ _ s rfl
  intro x i hx
  refine foldl_invariant (fun y => y = s) _ ?_ _ x hx
  intro y j hy
  unfold MatrixRef.set
  rw [h]
  exact hy

/-- `Matrix(Matrix const &)` against a well-formed source: the copy has the
source's shape, satisfies the invariant, owns a buffer distinct from the
source's, holds equal contents, and leaves the source's buffer bytes
untouched. -/
theorem copyCtor_spec (s : Store) (other : MatrixRef) (hwf : other.WF s) :
    (MatrixRef.copyCtor s other).2.nrow = other.nrow ∧
    (MatrixRef.copyCtor s other).2.ncol = other.ncol ∧
    (MatrixRef.copyCtor s other).2.WF (MatrixRef.copyCtor s other).1 ∧
    (∀ b b', (MatrixRef.copyCtor s other).2.data = some b →
      other.data = some b' → b ≠ b') ∧
    (∀ b, other.data = some b →
      (MatrixRef.copyCtor s other).1.mem b = s.mem b) ∧
    (∀ i j, i < other.nrow → j < other.ncol →
      (MatrixRef.copyCtor s other).2.get (MatrixRef.copyCtor s other).1 i j =
        other.get s i j) := by
  by_cases hz : other.nrow * other.ncol = 0
  · have hres : MatrixRef.copyCtor s other =
        (copyLoop s ⟨other.nrow, other.ncol, none⟩ other,
          ⟨other.nrow, other.ncol, none⟩) := by
      unfold MatrixRef.copyCtor resetBuffer
      simp [hz]
    have hloop : copyLoop s ⟨other.nrow, other.ncol, none⟩ other = s :=
      copyLoop_null s _ other rfl
    rw [hres, hloop]
    refine ⟨rfl, rfl, ?_, ?_, fun b hb => rfl, fun i j hi hj => ?_⟩
    · rw [MatrixRef.WF_none _ _ rfl]
      exact hz
    · intro b b' hb
      exact absurd hb (by simp)
    · rcases Nat.mul_eq_zero.mp hz with h | h <;> omega
  · obtain ⟨bo, hod, hbo⟩ : ∃ bo, other.data = some bo ∧ bo < s.next ∧
        (s.mem bo).length = other.nrow * other.ncol := by
      cases hod : other.data with
      | none => exact absurd ((MatrixRef.WF_none other s hod).mp hwf) hz
      | some bo =>
          obtain ⟨hb1, hb2, -⟩ := (MatrixRef.WF_some other s bo hod).mp hwf
          exact ⟨bo, rfl, hb1, hb2⟩
    have hres : MatrixRef.copyCtor s other =
        (copyLoop
            ⟨s.next + 1, fun b => if b = s.next then
              List.replicate (other.nrow * other.ncol) 0 else s.mem b⟩
            ⟨other.nrow, other.ncol, some s.next⟩ other,
          ⟨other.nrow, other.ncol, some s.next⟩) := by
      unfold MatrixRef.copyCtor resetBuffer Store.alloc
      simp [hz]
    set s1 : Store := ⟨s.next + 1, fun b => if b = s.next then
      List.replicate (other.nrow * other.ncol) 0 else s.mem b⟩ with hs1
    set dst : MatrixRef := ⟨other.nrow, other.ncol, some s.next⟩ with hdstdef
    have hsrc : other.data ≠ some s.next := by
      rw [hod]
      intro h
      have := Option.some.inj h
      omega
    have hs1len : (s1.mem s.next).length = dst.nrow * dst.ncol := by
      show (if s.next = s.next then
        List.replicate (other.nrow * other.ncol) 0 else s.mem s.next).length = _
      rw [if_pos rfl, List.length_replicate]
    have hs1other : s1.mem bo = s.mem bo := by
      show (if bo = s.next then _ else s.mem bo) = s.mem bo
      rw [if_neg (by omega)]
    rw [hres]
    refine ⟨rfl, rfl, ?_, ?_, ?_, ?_⟩
    · rw [MatrixRef.WF_some _ _ s.next rfl]
      refine ⟨?_, ?_, hz⟩
      · rw [copyLoop_next]
        exact Nat.lt_succ_self s.next
      · rw [copyLoop_length, hs1len]
    · intro b b' hb hb'
      have h1 : b = s.next := by
        have := Option.some.inj hb
        omega
      have h2 : b' = bo := by
        rw [hod] at hb'
        exact (Option.some.inj hb').symm
      omega
    · intro b hb
      have hbbo : b = bo := by
        rw [hod] at hb
        exact (Option.some.inj hb).symm
      subst hbbo
      rw [copyLoop_frame s1 dst other b (by
          rw [hdstdef]
          intro h
          have := Option.some.inj h
          omega),
        hs1other]
    · intro i j hi hj
      rw [copyLoop_get dst other s.next rfl hsrc s1 hs1len i j hi hj]
      exact MatrixRef.get_eq_of_mem_eq other s s1 i j
        (fun b hb => by
          have : b = bo := by rw [hod] at hb; exact (Option.some.inj hb).symm
          subst this
          exact hs1other)

/-- `operator=(Matrix const &)` between distinct well-formed objects (their
buffers, when owned, are distinct — the class never shares buffers between
objects): the target takes the source's shape and contents, keeps the
invariant, owns a buffer distinct from the source's, and the source's
buffer bytes stay untouched. -/
theorem copyAssign_spec (s : Store) (d other : MatrixRef) (hd : d.WF s)
    (ho : other.WF s)
    (hsep : ∀ b, d.data = some b → other.data ≠ some b) :
    (MatrixRef.copyAssign s d other).2.nrow = other.nrow ∧
    (MatrixRef.copyAssign s d other).2.ncol = other.ncol ∧
    (MatrixRef.copyAssign s d other).2.WF (MatrixRef.copyAssign s d other).1 ∧
    (∀ b b', (MatrixRef.copyAssign s d other).2.data = some b →
      other.data = some b' → b ≠ b') ∧
    (∀ b, other.data = some b →
      (MatrixRef.copyAssign s d other).1.mem b = s.mem b) ∧
    (∀ i j, i < other.nrow → j < other.ncol →
      (MatrixRef.copyAssign s d other).2.get
        (MatrixRef.copyAssign s d other).1 i j = other.get s i j) := by
  by_cases hsh : d.nrow ≠ other.nrow ∨ d.ncol ≠ other.ncol
  · have heq : MatrixRef.copyAssign s d other = MatrixRef.copyCtor s other := by
      unfold MatrixRef.copyAssign MatrixRef.copyCtor
      rw [if_pos hsh]
    rw [heq]
    exact copyCtor_spec s other ho
  · push_neg at hsh
    obtain ⟨hr, hc⟩ := hsh
    have heq : MatrixRef.copyAssign s d other = (copyLoop s d other, d) := by
      unfold MatrixRef.copyAssign
      rw [if_neg (by rintro (h | h) <;> [exact h hr; exact h hc])]
    rw [heq]
    cases hdd : d.data with
    | none =>
        have hz : d.nrow * d.ncol = 0 := (MatrixRef.WF_none d s hdd).mp hd
        have hloop : copyLoop s d other = s := copyLoop_null s d other hdd
        rw [hloop]
        refine ⟨hr, hc, hd, ?_, fun b hb => rfl, fun i j hi hj => ?_⟩
        · intro b b' hb
          simp at hb
        · rcases Nat.mul_eq_zero.mp hz with h | h <;> omega
    | some bd =>
        have hsrc : other.data ≠ some bd := hsep bd hdd
        obtain ⟨hb1, hb2, hb3⟩ := (MatrixRef.WF_some d s bd hdd).mp hd
        refine ⟨hr, hc, ?_, ?_, ?_, ?_⟩
        · rw [MatrixRef.WF_some _ _ bd hdd]
          exact ⟨by rw [copyLoop_next]; exact hb1,
            by rw [copyLoop_length]; exact hb2, hb3⟩
        · intro b b' hb hb'
          have hbbd : b = bd := (Option.some.inj hb).symm
          intro hbb'
          exact hsrc (hb'.trans (congrArg some (hbb'.symm.trans hbbd)))
        · intro b hb
          refine copyLoop_frame s d other b ?_
          rw [hdd]
          intro h
          exact hsrc (hb.trans (congrArg some (Option.some.inj h).symm))
        · intro i j hi hj
          exact copyLoop_get d other bd hdd hsrc s hb2 i j (by omega)
            (by omega)

/-- C10: a copy made by the copy constructor or by copy assignment has the
original's shape and equal contents in an independent buffer (distinct from
the original's whenever both own one), the copy operation leaves the
original's elements unchanged, and afterwards writing any element through
the copy leaves every element of the original unchanged and vice versa.
For copy assignment the objects are distinct, so — as the class never
shares one buffer between two objects — their owned buffers are assumed
distinct. -/
theorem copy_independence :
    (∀ s m, m.WF s →
      (MatrixRef.copyCtor s m).2.nrow = m.nrow ∧
      (MatrixRef.copyCtor s m).2.ncol = m.ncol ∧
      (∀ i j, i < m.nrow → j < m.ncol →
        (MatrixRef.copyCtor s m).2.get (MatrixRef.copyCtor s m).1 i j =
          m.get s i j) ∧
      (∀ i' j', m.get (MatrixRef.copyCtor s m).1 i' j' = m.get s i' j') ∧
      (∀ b b', (MatrixRef.copyCtor s m).2.data = some b →
        m.data = some b' → b ≠ b') ∧
      (∀ i j v i' j',
        m.get ((MatrixRef.copyCtor s m).2.set
          (MatrixRef.copyCtor s m).1 i j v) i' j' =
        m.get (MatrixRef.copyCtor s m).1 i' j') ∧
      (∀ i j v i' j',
        (MatrixRef.copyCtor s m).2.get
          (m.set (MatrixRef.copyCtor s m).1 i j v) i' j' =
        (MatrixRef.copyCtor s m).2.get (MatrixRef.copyCtor s m).1 i' j')) ∧
    (∀ s d m, d.WF s → m.WF s → (∀ b, d.data = some b → m.data ≠ some b) →
      (MatrixRef.copyAssign s d m).2.nrow = m.nrow ∧
      (MatrixRef.copyAssign s d m).2.ncol = m.ncol ∧
      (∀ i j, i < m.nrow → j < m.ncol →
        (MatrixRef.copyAssign s d m).2.get
          (MatrixRef.copyAssign s d m).1 i j = m.get s i j) ∧
      (∀ i' j', m.get (MatrixRef.copyAssign s d m).1 i' j' =
        m.get s i' j') ∧
      (∀ b b', (MatrixRef.copyAssign s d m).2.data = some b →
        m.data = some b' → b ≠ b') ∧
      (∀ i j v i' j',
        m.get ((MatrixRef.copyAssign s d m).2.set
          (MatrixRef.copyAssign s d m).1 i j v) i' j' =
        m.get (MatrixRef.copyAssign s d m).1 i' j') ∧
      (∀ i j v i' j',
        (MatrixRef.copyAssign s d m).2.get
          (m.set (MatrixRef.copyAssign s d m).1 i j v) i' j' =
        (MatrixRef.copyAssign s d m).2.get
          (MatrixRef.copyAssign s d m).1 i' j')) := by
  constructor
  · intro s m hm
    obtain ⟨h1, h2, h3, h4, h5, h6⟩ := copyCtor_spec s m hm
    refine ⟨h1, h2, h6, ?_, h4, ?_, ?_⟩
    · intro i' j'
      exact MatrixRef.get_eq_of_mem_eq m s _ i' j' (fun b hb => h5 b hb)
    · intro i j v i' j'
      refine MatrixRef.get_eq_of_mem_eq m _ _ i' j' ?_
      intro b hb
      refine MatrixRef.mem_set_ne _ _ _ _ _ _ ?_
      intro hcb
      exact (h4 b b hcb hb) rfl
    · intro i j v i' j'
      refine MatrixRef.get_eq_of_mem_eq (MatrixRef.copyCtor s m).2 _ _ i' j' ?_
      intro b hb
      refine MatrixRef.mem_set_ne _ _ _ _ _ _ ?_
      intro hmb
      exact (h4 b b hb hmb) rfl
  · intro s d m hd hm hsep
    obtain ⟨h1, h2, h3, h4, h5, h6⟩ := copyAssign_spec s d m hd hm hsep
    refine ⟨h1, h2, h6, ?_, h4, ?_, ?_⟩
    · intro i' j'
      exact MatrixRef.get_eq_of_mem_eq m s _ i' j' (fun b hb => h5 b hb)
    · intro i j v i' j'
      refine MatrixRef.get_eq_of_mem_eq m _ _ i' j' ?_
      intro b hb
      refine MatrixRef.mem_set_ne _ _ _ _ _ _ ?_
      intro hcb
      exact (h4 b b hcb hb) rfl
    · intro i j v i' j'
      refine MatrixRef.get_eq_of_mem_eq (MatrixRef.copyAssign s d m).2 _ _
        i' j' ?_
      intro b hb
      refine MatrixRef.mem_set_ne _ _ _ _ _ _ ?_
      intro hmb
      exact (h4 b b hb hmb) rfl

/-- Witness for C10: copying the concrete 1×1 matrix holding 7 yields a copy
holding 7, and writing 9 through the copy leaves the original's element
untouched. -/
theorem copy_independence_witness :
    (MatrixRef.copyCtor mvS mvX).2.get (MatrixRef.copyCtor mvS mvX).1 0 0 =
      mvX.get mvS 0 0 ∧
    mvX.get ((MatrixRef.copyCtor mvS mvX).2.set
        (MatrixRef.copyCtor mvS mvX).1 0 0 9) 0 0 =
      mvX.get (MatrixRef.copyCtor mvS mvX).1 0 0 := by
  have hwf : mvX.WF mvS := by decide
  obtain ⟨-, -, hcontents, -, -, hframe, -⟩ :=
    copy_independence.1 mvS mvX hwf
  exact ⟨hcontents 0 0 (by decide) (by decide), hframe 0 0 9 0 0⟩

/-- C9: every public operation establishes or preserves the data-model
invariant — the owned buffer holds exactly `nrow*ncol` elements and an
empty matrix owns no buffer — and the multiplication results carry a
buffer of exactly `rows*cols` elements. -/
theorem invariant_preservation :
    (∀ (s : Store) (r c : ℕ), (MatrixRef.construct s r c).2.WF
      (MatrixRef.construct s r c).1) ∧
    (∀ (s : Store) (m : MatrixRef), m.WF s →
      (MatrixRef.copyCtor s m).2.WF (MatrixRef.copyCtor s m).1) ∧
    (∀ (s : Store) (d m : MatrixRef), d.WF s →
      (MatrixRef.copyAssign s d m).2.WF (MatrixRef.copyAssign s d m).1) ∧
    (∀ (s : Store) (m : MatrixRef), m.WF s →
      (m.moveCtor s).2.1.WF (m.moveCtor s).1 ∧
      (m.moveCtor s).2.2.WF (m.moveCtor s).1) ∧
    (∀ (s : Store) (y x : MatrixRef), y.WF s → x.WF s →
      (y.moveAssign x).1.WF s ∧ (y.moveAssign x).2.WF s) ∧
    (∀ (s : Store) (m : MatrixRef) (i j : ℕ) (v : ℚ), m.WF s →
      m.WF (m.set s i j v)) ∧
    (∀ A B C, multiply_naive A B = .ok C →
      C.nrow = A.nrow ∧ C.ncol = B.ncol ∧
        C.data.length = C.nrow * C.ncol) ∧
    (∀ A B ts C, multiply_tile A B ts = .ok (some C) →
      C.nrow = A.nrow ∧ C.ncol = B.ncol ∧
        C.data.length = C.nrow * C.ncol) := by
  have hconstruct : ∀ (s : Store) (r c : ℕ), (MatrixRef.construct s r c).2.WF
      (MatrixRef.construct s r c).1 := by
    intro s r c
    by_cases hz : r * c = 0
    · have heq : MatrixRef.construct s r c = (s, ⟨r, c, none⟩) := by
        unfold MatrixRef.construct resetBuffer
        simp [hz]
      rw [heq]
      exact (MatrixRef.WF_none _ _ rfl).mpr hz
    · have heq : MatrixRef.construct s r c =
          (⟨s.next + 1, fun b => if b = s.next then
            List.replicate (r * c) 0 else s.mem b⟩, ⟨r, c, some s.next⟩) := by
        unfold MatrixRef.construct resetBuffer Store.alloc
        simp [hz]
      rw [heq]
      refine (MatrixRef.WF_some _ _ s.next rfl).mpr
        ⟨Nat.lt_succ_self _, ?_, hz⟩
      show (if s.next = s.next then List.replicate (r * c) 0
        else s.mem s.next).length = r * c
      rw [if_pos rfl, List.length_replicate]
  have hassign : ∀ (s : Store) (d m : MatrixRef), d.WF s →
      (MatrixRef.copyAssign s d m).2.WF (MatrixRef.copyAssign s d m).1 := by
    intro s d m hd
    by_cases hsh : d.nrow ≠ m.nrow ∨ d.ncol ≠ m.ncol
    · have heq : MatrixRef.copyAssign s d m =
          (copyLoop (resetBuffer s m.nrow m.ncol).1
            (resetBuffer s m.nrow m.ncol).2 m,
          (resetBuffer s m.nrow m.ncol).2) := by
        unfold MatrixRef.copyAssign
        rw [if_pos hsh]
      rw [heq]
      by_cases hz : m.nrow * m.ncol = 0
      · have hres : resetBuffer s m.nrow m.ncol = (s, ⟨m.nrow, m.ncol, none⟩) := by
          unfold resetBuffer
          simp [hz]
        rw [hres]
        rw [copyLoop_null s _ m rfl]
        exact (MatrixRef.WF_none _ _ rfl).mpr hz
      · have hres : resetBuffer s m.nrow m.ncol =
            ((⟨s.next + 1, fun b => if b = s.next then
              List.replicate (m.nrow * m.ncol) 0 else s.mem b⟩ : Store),
            (⟨m.nrow, m.ncol, some s.next⟩ : MatrixRef)) := by
          unfold resetBuffer Store.alloc
          simp [hz]
        rw [hres]
        refine (MatrixRef.WF_some _ _ s.next rfl).mpr ⟨?_, ?_, hz⟩
        · rw [copyLoop_next]
          exact Nat.lt_succ_self s.next
        · rw [copyLoop_length]
          show (if s.next = s.next then List.replicate (m.nrow * m.ncol) 0
            else s.mem s.next).length = m.nrow * m.ncol
          rw [if_pos rfl, List.length_replicate]
    · have heq : MatrixRef.copyAssign s d m = (copyLoop s d m, d) := by
        unfold MatrixRef.copyAssign
        rw [if_neg hsh]
      rw [heq]
      cases hdd : d.data with
      | none =>
          rw [copyLoop_null s d m hdd]
          exact hd
      | some bd =>
          obtain ⟨hb1, hb2, hb3⟩ := (MatrixRef.WF_some d s bd hdd).mp hd
          refine (MatrixRef.WF_some _ _ bd hdd).mpr
            ⟨by rw [copyLoop_next]; exact hb1,
              by rw [copyLoop_length]; exact hb2, hb3⟩
  have hnaive : ∀ A B C, multiply_naive A B = .ok C →
      C.nrow = A.nrow ∧ C.ncol = B.ncol ∧
        C.data.length = C.nrow * C.ncol := by
    intro A B C h
    unfold multiply_naive at h
    by_cases hdim : A.ncol ≠ B.nrow
    · rw [if_pos hdim] at h
      exact Except.noConfusion h
    · rw [if_neg hdim] at h
      have hfold := Except.ok.inj h
      subst hfold
      have hp := foldl_matrix_shape A.nrow B.ncol (A.nrow * B.ncol)
        (fun ret i =>
          (List.range B.ncol).foldl (fun ret k =>
            (List.range A.ncol).foldl (fun ret j =>
              ret.set i k (ret.get i k + A.get i j * B.get j k)) ret) ret)
        (by
          intro m i h1 h2 h3
          refine foldl_matrix_shape A.nrow B.ncol (A.nrow * B.ncol) _ ?_ _ _
            h1 h2 h3
          intro m k h1 h2 h3
          refine foldl_matrix_shape A.nrow B.ncol (A.nrow * B.ncol) _ ?_ _ _
            h1 h2 h3
          intro m j h1 h2 h3
          exact ⟨by simp [h1], by simp [h2], by simp [h3]⟩)
        (List.range A.nrow) (Matrix.construct ℚ A.nrow B.ncol) rfl rfl
        (by simp [Matrix.construct])
      exact ⟨hp.1, hp.2.1, by rw [hp.2.2, hp.1, hp.2.1]⟩
  have htile : ∀ A B ts C, multiply_tile A B ts = .ok (some C) →
      C.nrow = A.nrow ∧ C.ncol = B.ncol ∧
        C.data.length = C.nrow * C.ncol := by
    intro A B ts C h
    unfold multiply_tile at h
    by_cases hdim : A.ncol ≠ B.nrow
    · rw [if_pos hdim] at h
      exact Except.noConfusion h
    · rw [if_neg hdim] at h
      have hpay := Except.ok.inj h
      cases e1 : stepRange A.nrow 0 A.nrow ts with
      | none => rw [e1] at hpay; simp at hpay
      | some tis =>
      rw [e1] at hpay
      cases e2 : stepRange B.ncol 0 B.ncol ts with
      | none => rw [e2] at hpay; simp at hpay
      | some tks =>
      rw [e2] at hpay
      cases e3 : stepRange A.ncol 0 A.ncol ts with
      | none => rw [e3] at hpay; simp at hpay
      | some tjs =>
      rw [e3] at hpay
      simp only [Option.bind_some, Option.map_some] at hpay
      have hfold := Option.some.inj hpay
      subst hfold
      have hp := foldl_matrix_shape A.nrow B.ncol (A.nrow * B.ncol)
        (fun ret tile_i =>
          tks.foldl (fun ret tile_k =>
            tjs.foldl (fun ret tile_j =>
              (List.range' tile_i (min (tile_i + ts) A.nrow - tile_i)).foldl
                (fun ret i =>
                  (List.range' tile_k
                      (min (tile_k + ts) B.ncol - tile_k)).foldl
                    (fun ret k =>
                      (List.range' tile_j
                          (min (tile_j + ts) A.ncol - tile_j)).foldl
                        (fun ret j =>
                          ret.set i j
                            (ret.get i j + A.get i k * B.get k j)) ret)
                    ret) ret) ret) ret)
        (by
          intro m ti h1 h2 h3
          refine foldl_matrix_shape A.nrow B.ncol (A.nrow * B.ncol) _ ?_ _ _
            h1 h2 h3
          intro m tk h1 h2 h3
          refine foldl_matrix_shape A.nrow B.ncol (A.nrow * B.ncol) _ ?_ _ _
            h1 h2 h3
          intro m tj h1 h2 h3
          refine foldl_matrix_shape A.nrow B.ncol (A.nrow * B.ncol) _ ?_ _ _
            h1 h2 h3
          intro m i h1 h2 h3
          refine foldl_matrix_shape A.nrow B.ncol (A.nrow * B.ncol) _ ?_ _ _
            h1 h2 h3
          intro m k h1 h2 h3
          refine foldl_matrix_shape A.nrow B.ncol (A.nrow * B.ncol) _ ?_ _ _
            h1 h2 h3
          intro m j h1 h2 h3
          exact ⟨by simp [h1], by simp [h2], by simp [h3]⟩)
        tis (Matrix.construct ℚ A.nrow B.ncol) rfl rfl
        (by simp [Matrix.construct])
      exact ⟨hp.1, hp.2.1, by rw [hp.2.2, hp.1, hp.2.1]⟩
  refine ⟨hconstruct, ?_, hassign, ?_, ?_, ?_, hnaive, htile⟩
  · intro s m hm
    exact (copyCtor_spec s m hm).2.2.1
  · intro s m hm
    exact ⟨hm, (MatrixRef.WF_none _ _ rfl).mpr rfl⟩
  · intro s y x hy hx
    exact ⟨hx, hy⟩
  · intro s m i j v hm
    cases hdd : m.data with
    | none =>
        exact (MatrixRef.WF_none _ _ hdd).mpr ((MatrixRef.WF_none m s hdd).mp hm)
    | some bd =>
        obtain ⟨hb1, hb2, hb3⟩ := (MatrixRef.WF_some m s bd hdd).mp hm
        refine (MatrixRef.WF_some _ _ bd hdd).mpr
          ⟨by rw [MatrixRef.next_set]; exact hb1,
            by rw [MatrixRef.length_mem_set]; exact hb2, hb3⟩

/-- Witness for C9: the invariant holds for a fresh 2×3 matrix, for a copy
of the concrete 1×1 matrix, after an element write, and the concrete naive
product's buffer has exactly `rows*cols` elements. -/
theorem invariant_preservation_witness :
    (MatrixRef.construct emptyStore 2 3).2.WF
      (MatrixRef.construct emptyStore 2 3).1 ∧
    (MatrixRef.copyCtor mvS mvX).2.WF (MatrixRef.copyCtor mvS mvX).1 ∧
    mvX.WF (mvX.set mvS 0 0 3) ∧
    (⟨2, 2, [58, 64, 139, 154]⟩ : Matrix ℚ).data.length =
      (⟨2, 2, [58, 64, 139, 154]⟩ : Matrix ℚ).nrow *
        (⟨2, 2, [58, 64, 139, 154]⟩ : Matrix ℚ).ncol := by
  obtain ⟨hcon, hcc, -, -, -, hset, hmn, -⟩ := invariant_preservation
  refine ⟨hcon emptyStore 2 3, hcc mvS mvX (by decide),
    hset mvS mvX 0 0 3 (by decide), ?_⟩
  exact (hmn ⟨2, 3, [1, 2, 3, 4, 5, 6]⟩ ⟨3, 2, [7, 8, 9, 10, 11, 12]⟩
    ⟨2, 2, [58, 64, 139, 154]⟩ (by decide)).2.2

/-- C4 as stated is false: at the 1×1 matrix holding a NaN, compared with
itself, the dimensions are identical and the element lists are bit-for-bit
identical, yet `operator==` — IEEE `!=` on doubles — reports the matrices
unequal. -/
theorem beq_nan_counterexample :
    ¬ (∀ a b : Matrix DVal, Matrix.beq a b = true ↔
        a.nrow = b.nrow ∧ a.ncol = b.ncol ∧ a.data = b.data) := fun h =>
  absurd ((h ⟨1, 1, [DVal.nan]⟩ ⟨1, 1, [DVal.nan]⟩).mpr ⟨rfl, rfl, rfl⟩)
    (by decide)

/-- C4 amended: `operator==` returns true iff the dimensions agree and every
in-range element pair compares equal under IEEE-754 `double` comparison —
so matrices containing NaN never compare equal (even to themselves), and a
`+0.0` element compares equal to a `-0.0` element although their bits
differ. -/
theorem beq_iff_ieeeEq (a b : Matrix DVal) :
    Matrix.beq a b = true ↔
      a.nrow = b.nrow ∧ a.ncol = b.ncol ∧
      ∀ i j, i < a.nrow → j < a.ncol →
        DVal.ieeeEq (a.get i j) (b.get i j) = true := by
  unfold Matrix.beq
  by_cases h : a.nrow ≠ b.nrow ∨ a.ncol ≠ b.ncol
  · rw [if_pos h]
    simp only [Bool.false_eq_true, false_iff]
    rintro ⟨h1, h2, -⟩
    rcases h with h | h <;> exact h (by assumption)
  · push_neg at h
    rw [if_neg (by rintro (h' | h') <;> [exact h' h.1; exact h' h.2])]
    simp only [List.all_eq_true, List.mem_range]
    constructor
    · intro hall
      exact ⟨h.1, h.2, fun i j hi hj => hall i hi j hj⟩
    · rintro ⟨-, -, hall⟩
      intro i hi j hj
      exact hall i j hi hj

/-- Witness for C4's amended equivalence: two bit-identical NaN-free 1×1
matrices do compare equal. -/
theorem beq_iff_ieeeEq_witness :
    Matrix.beq ⟨1, 1, [DVal.num 2]⟩ ⟨1, 1, [DVal.num 2]⟩ = true :=
  (beq_iff_ieeeEq ⟨1, 1, [DVal.num 2]⟩ ⟨1, 1, [DVal.num 2]⟩).mpr
    ⟨rfl, rfl, fun i j hi hj => by
      have hi0 : i = 0 := Nat.lt_one_iff.mp hi
      have hj0 : j = 0 := Nat.lt_one_iff.mp hj
      subst hi0 hj0
      decide⟩

/-- C3 as stated is false for move assignment: with the well-formed 1×1
matrices `Y` (holding 5) and `X` (holding 7), executing `Y = move(X)` swaps
the two objects, so the moved-from `X` is afterwards a 1×1 matrix holding
`Y`'s old element 5 — not a valid empty 0×0 matrix. -/
theorem moveAssign_not_empty_counterexample :
    mvY.WF mvS ∧ mvX.WF mvS ∧
    mvY.get mvS 0 0 = 5 ∧ mvX.get mvS 0 0 = 7 ∧
    (mvY.moveAssign mvX).1.get mvS 0 0 = 7 ∧
    ¬ ((mvY.moveAssign mvX).2.nrow = 0 ∧ (mvY.moveAssign mvX).2.ncol = 0) ∧
    (mvY.moveAssign mvX).2.get mvS 0 0 = 5 := by
  refine ⟨by decide, by decide, by decide, by decide, by decide, by decide,
    by decide⟩

/-- C3 amended: move construction leaves the source as a valid empty 0×0
matrix (null buffer) and hands the source's dimensions and buffer — hence
its contents — to the new matrix without touching the store (no element is
copied, no allocation).  Move assignment instead swaps the two objects'
dimensions and buffers, again without touching the store: the target
receives the source's original dimensions and contents, while the
moved-from source receives the target's previous contents (and so is empty
only when the target was). -/
theorem move_semantics (s : Store) (x y : MatrixRef) :
    (x.moveCtor s).1 = s ∧
    (x.moveCtor s).2.1.nrow = x.nrow ∧
    (x.moveCtor s).2.1.ncol = x.ncol ∧
    (x.moveCtor s).2.1.data = x.data ∧
    (∀ i j, (x.moveCtor s).2.1.get s i j = x.get s i j) ∧
    (x.moveCtor s).2.2 = ⟨0, 0, none⟩ ∧
    (y.moveAssign x).1.nrow = x.nrow ∧
    (y.moveAssign x).1.ncol = x.ncol ∧
    (y.moveAssign x).1.data = x.data ∧
    (∀ i j, (y.moveAssign x).1.get s i j = x.get s i j) ∧
    (y.moveAssign x).2.nrow = y.nrow ∧
    (y.moveAssign x).2.ncol = y.ncol ∧
    (y.moveAssign x).2.data = y.data ∧
    (∀ i j, (y.moveAssign x).2.get s i j = y.get s i j) := by
  refine ⟨rfl, rfl, rfl, rfl, fun i j => rfl, rfl, rfl, rfl, rfl,
    fun i j => rfl, rfl, rfl, rfl, fun i j => rfl⟩

end Cpp

end RatEval
